import Mathlib

/-
Formal model of the measurement-grouping engine of the VQE notebooks
(`Week2_VQE`): Pauli terms, qubit-wise and full commutation predicates,
the greedy grouping of a Hamiltonian into commuting fragments, and the
basis-rotation unitaries that bring a commuting fragment into all-Z
(computational-basis-measurable) form.  Operators are represented the way
the underlying `QubitOperator` objects behave: a finitely supported
assignment of an exact scalar coefficient to every Pauli string, with the
tensor-product Pauli algebra as multiplication.  Scalars live in the exact
field ℚ(√2, i), so unitarity statements are exact rather than within a
floating tolerance.
-/

namespace VQE

/-- Scalar coefficients: the subfield ℚ(√2, i) of ℂ, written as
`ra + rb·√2 + (ia + ib·√2)·i` with all four components rational.
This is exact arithmetic; it contains the `1/√2 = √2/2` factors of the
Hadamard-like rotation factors and the powers of `i` produced by the
Pauli algebra. -/
@[ext] structure K where
  ra : ℚ
  rb : ℚ
  ia : ℚ
  ib : ℚ
deriving DecidableEq

namespace K

/-- Componentwise addition. -/
def add (x y : K) : K := ⟨x.ra + y.ra, x.rb + y.rb, x.ia + y.ia, x.ib + y.ib⟩

/-- Componentwise negation. -/
def neg (x : K) : K := ⟨-x.ra, -x.rb, -x.ia, -x.ib⟩

/-- Multiplication, using `√2·√2 = 2` and `i·i = -1`. -/
def mul (x y : K) : K :=
  ⟨x.ra * y.ra + 2 * (x.rb * y.rb) - x.ia * y.ia - 2 * (x.ib * y.ib),
   x.ra * y.rb + x.rb * y.ra - x.ia * y.ib - x.ib * y.ia,
   x.ra * y.ia + x.ia * y.ra + 2 * (x.rb * y.ib) + 2 * (x.ib * y.rb),
   x.ra * y.ib + x.ib * y.ra + x.rb * y.ia + x.ia * y.rb⟩

instance : Zero K := ⟨⟨0, 0, 0, 0⟩⟩
instance : One K := ⟨⟨1, 0, 0, 0⟩⟩
instance : Add K := ⟨K.add⟩
instance : Neg K := ⟨K.neg⟩
instance : Mul K := ⟨K.mul⟩

lemma zero_def : (0 : K) = ⟨0, 0, 0, 0⟩ := rfl

lemma one_def : (1 : K) = ⟨1, 0, 0, 0⟩ := rfl

lemma add_def (x y : K) : x + y = ⟨x.ra + y.ra, x.rb + y.rb, x.ia + y.ia, x.ib + y.ib⟩ := rfl

lemma neg_def (x : K) : -x = ⟨-x.ra, -x.rb, -x.ia, -x.ib⟩ := rfl

lemma mul_def (x y : K) :
    x * y =
      ⟨x.ra * y.ra + 2 * (x.rb * y.rb) - x.ia * y.ia - 2 * (x.ib * y.ib),
       x.ra * y.rb + x.rb * y.ra - x.ia * y.ib - x.ib * y.ia,
       x.ra * y.ia + x.ia * y.ra + 2 * (x.rb * y.ib) + 2 * (x.ib * y.rb),
       x.ra * y.ib + x.ib * y.ra + x.rb * y.ia + x.ia * y.rb⟩ := rfl

instance : CommRing K where
  add := (· + ·)
  add_assoc x y z := by apply K.ext <;> simp [add_def] <;> ring
  zero := 0
  zero_add x := by apply K.ext <;> simp [add_def, zero_def]
  add_zero x := by apply K.ext <;> simp [add_def, zero_def]
  add_comm x y := by apply K.ext <;> simp [add_def] <;> ring
  neg := Neg.neg
  neg_add_cancel x := by apply K.ext <;> simp [add_def, neg_def, zero_def]
  nsmul := nsmulRec
  zsmul := zsmulRec
  mul := (· * ·)
  left_distrib x y z := by apply K.ext <;> simp [mul_def, add_def] <;> ring
  right_distrib x y z := by apply K.ext <;> simp [mul_def, add_def] <;> ring
  zero_mul x := by apply K.ext <;> simp [mul_def, zero_def]
  mul_zero x := by apply K.ext <;> simp [mul_def, zero_def]
  mul_assoc x y z := by apply K.ext <;> simp [mul_def] <;> ring
  one := 1
  one_mul x := by apply K.ext <;> simp [mul_def, one_def]
  mul_one x := by apply K.ext <;> simp [mul_def, one_def]
  mul_comm x y := by apply K.ext <;> simp [mul_def] <;> ring

/-- The imaginary unit. -/
def iu : K := ⟨0, 0, 1, 0⟩

/-- The scalar `1/√2 = √2/2` appearing in every elementary rotation factor. -/
def hf : K := ⟨0, 1 / 2, 0, 0⟩

lemma iu_sq : iu * iu = -1 := by
  apply K.ext <;> simp [mul_def, iu, one_def, neg_def]

lemma iu_pow_four : iu ^ 4 = 1 := by
  have h : iu ^ 4 = (iu * iu) * (iu * iu) := by ring
  rw [h, iu_sq]
  ring

lemma hf_hf_add : hf * hf + hf * hf = 1 := by
  apply K.ext <;> simp [mul_def, add_def, hf, one_def] <;> norm_num

/-- Complex conjugation on ℚ(√2, i). -/
def conj (x : K) : K := ⟨x.ra, x.rb, -x.ia, -x.ib⟩

lemma conj_add (x y : K) : conj (x + y) = conj x + conj y := by
  apply K.ext <;> simp [conj, add_def] <;> ring

lemma conj_mul (x y : K) : conj (x * y) = conj x * conj y := by
  apply K.ext <;> simp [conj, mul_def] <;> ring

lemma conj_zero : conj 0 = 0 := by
  apply K.ext <;> simp [conj, zero_def]

lemma conj_one : conj 1 = 1 := by
  apply K.ext <;> simp [conj, one_def]

lemma conj_hf : conj hf = hf := by
  apply K.ext <;> simp [conj, hf]

lemma iu_mul_conj : iu * conj iu = 1 := by
  apply K.ext <;> simp [conj, mul_def, iu, one_def]

end K

/-- Powers of the imaginary unit, indexed by the phase group ℤ/4 that the
Pauli algebra produces. -/
def phaseK (k : ZMod 4) : K := K.iu ^ k.val

lemma phaseK_zero : phaseK 0 = 1 := by
  simp [phaseK, ZMod.val_zero]

lemma phaseK_add (j k : ZMod 4) : phaseK (j + k) = phaseK j * phaseK k := by
  unfold phaseK
  have h : K.iu ^ ((j.val + k.val) % 4) = K.iu ^ (j.val + k.val) := by
    conv_rhs => rw [← Nat.div_add_mod (j.val + k.val) 4]
    rw [pow_add, pow_mul, K.iu_pow_four, one_pow, one_mul]
  rw [ZMod.val_add, h, pow_add]

lemma phaseK_two : phaseK 2 = -1 := by
  have h : ((2 : ZMod 4)).val = 2 := rfl
  unfold phaseK
  rw [h, pow_two]
  exact K.iu_sq

lemma phaseK_add_two (k : ZMod 4) : phaseK (k + 2) = -phaseK k := by
  rw [phaseK_add, phaseK_two]
  ring

lemma phaseK_neg_mul (k : ZMod 4) : phaseK (-k) * phaseK k = 1 := by
  rw [← phaseK_add, neg_add_cancel, phaseK_zero]

lemma phaseK_mul_conj (k : ZMod 4) : phaseK k * K.conj (phaseK k) = 1 := by
  unfold phaseK
  induction k.val with
  | zero => simp [K.conj_one]
  | succ m ih =>
      rw [pow_succ, K.conj_mul]
      calc K.iu ^ m * K.iu * (K.conj (K.iu ^ m) * K.conj K.iu)
          = (K.iu ^ m * K.conj (K.iu ^ m)) * (K.iu * K.conj K.iu) := by ring
        _ = 1 := by rw [ih, K.iu_mul_conj, one_mul]

lemma conj_phaseK (k : ZMod 4) : K.conj (phaseK k) = phaseK (-k) := by
  have h := phaseK_mul_conj k
  calc K.conj (phaseK k)
      = (phaseK (-k) * phaseK k) * K.conj (phaseK k) := by rw [phaseK_neg_mul, one_mul]
    _ = phaseK (-k) * (phaseK k * K.conj (phaseK k)) := by ring
    _ = phaseK (-k) := by rw [h, mul_one]

/-- Single-qubit Pauli operators. `I` is the implicit identity the source
leaves absent from a term's qubit-to-operator mapping. -/
inductive Pauli where
  | I
  | X
  | Y
  | Z
deriving DecidableEq, Fintype

namespace Pauli

/-- Product of two single-qubit Paulis, ignoring the scalar phase
(`X·Y = iZ` has product part `Z`). -/
def mul : Pauli → Pauli → Pauli
  | I, p => p
  | p, I => p
  | X, X => I
  | Y, Y => I
  | Z, Z => I
  | X, Y => Z
  | Y, X => Z
  | Y, Z => X
  | Z, Y => X
  | Z, X => Y
  | X, Z => Y

/-- Phase of the product of two single-qubit Paulis, as a power of `i`:
`a·b = i^(ph a b) · (mul a b)`. -/
def ph : Pauli → Pauli → ZMod 4
  | X, Y => 1
  | Y, Z => 1
  | Z, X => 1
  | Y, X => 3
  | Z, Y => 3
  | X, Z => 3
  | _, _ => 0

lemma mul_i_left (p : Pauli) : mul I p = p := by cases p <;> rfl

lemma mul_i_right (p : Pauli) : mul p I = p := by cases p <;> rfl

lemma mul_self (p : Pauli) : mul p p = I := by cases p <;> rfl

lemma mul_comm_law (a b : Pauli) : mul a b = mul b a := by revert a b; decide

lemma mul_cancel_left (a b : Pauli) : mul a (mul a b) = b := by revert a b; decide

lemma mul_four (a b s : Pauli) : mul (mul a b) (mul b s) = mul a s := by
  revert a b s; decide

lemma mul_assoc_law (a b c : Pauli) : mul (mul a b) c = mul a (mul b c) := by
  revert a b c; decide

lemma ph_self (p : Pauli) : ph p p = 0 := by cases p <;> rfl

lemma ph_i_left (p : Pauli) : ph I p = 0 := by cases p <;> rfl

lemma ph_i_right (p : Pauli) : ph p I = 0 := by cases p <;> rfl

lemma ph_antisym (a b : Pauli) : ph a b + ph b a = 0 := by revert a b; decide

lemma ph_cocycle (a b c : Pauli) :
    ph a b + ph (mul a b) c = ph b c + ph a (mul b c) := by revert a b c; decide

end Pauli

/-- A Pauli string on `n` qubits: the qubit-to-operator mapping of a term,
with the identity represented explicitly as `Pauli.I` (the source leaves
identity qubits absent; a total function with default `I` is the same
data). -/
abbrev PString (n : ℕ) := Fin n → Pauli

/-- The identity string (empty operator mapping). -/
def idS (n : ℕ) : PString n := fun _ => Pauli.I

/-- Qubit-wise product part of two Pauli strings. -/
def mulS {n : ℕ} (a b : PString n) : PString n := fun q => (a q).mul (b q)

/-- Total phase (power of `i`) of the product of two Pauli strings. -/
def phS {n : ℕ} (a b : PString n) : ZMod 4 := ∑ q, (a q).ph (b q)

lemma mulS_idS_left {n : ℕ} (b : PString n) : mulS (idS n) b = b := by
  funext q
  exact Pauli.mul_i_left (b q)

lemma mulS_self {n : ℕ} (a : PString n) : mulS a a = idS n := by
  funext q
  exact Pauli.mul_self (a q)

lemma mulS_comm {n : ℕ} (a b : PString n) : mulS a b = mulS b a := by
  funext q
  exact Pauli.mul_comm_law (a q) (b q)

lemma mulS_cancel_left {n : ℕ} (a b : PString n) : mulS a (mulS a b) = b := by
  funext q
  exact Pauli.mul_cancel_left (a q) (b q)

lemma mulS_four {n : ℕ} (a b s : PString n) :
    mulS (mulS a b) (mulS b s) = mulS a s := by
  funext q
  exact Pauli.mul_four (a q) (b q) (s q)

lemma phS_self {n : ℕ} (a : PString n) : phS a a = 0 := by
  unfold phS
  exact Finset.sum_eq_zero fun q _ => Pauli.ph_self (a q)

lemma phS_idS_left {n : ℕ} (b : PString n) : phS (idS n) b = 0 := by
  unfold phS
  exact Finset.sum_eq_zero fun q _ => Pauli.ph_i_left (b q)

lemma phS_idS_right {n : ℕ} (a : PString n) : phS a (idS n) = 0 := by
  unfold phS
  exact Finset.sum_eq_zero fun q _ => Pauli.ph_i_right (a q)

lemma phS_antisym {n : ℕ} (a b : PString n) : phS a b + phS b a = 0 := by
  unfold phS
  rw [← Finset.sum_add_distrib]
  exact Finset.sum_eq_zero fun q _ => Pauli.ph_antisym (a q) (b q)

lemma phS_cocycle {n : ℕ} (a b c : PString n) :
    phS a b + phS (mulS a b) c = phS b c + phS a (mulS b c) := by
  unfold phS
  rw [← Finset.sum_add_distrib, ← Finset.sum_add_distrib]
  exact Finset.sum_congr rfl fun q _ => Pauli.ph_cocycle (a q) (b q) (c q)

lemma mulS_assoc {n : ℕ} (a b c : PString n) :
    mulS (mulS a b) c = mulS a (mulS b c) := by
  funext q
  exact Pauli.mul_assoc_law (a q) (b q) (c q)

lemma mulS_idS_right {n : ℕ} (a : PString n) : mulS a (idS n) = a := by
  rw [mulS_comm]
  exact mulS_idS_left a

lemma mulS_cancel_right {n : ℕ} (a s : PString n) : mulS (mulS a s) s = a := by
  rw [mulS_assoc, mulS_self, mulS_idS_right]

/-- Left multiplication by a fixed string is a bijection of the string
group (every string is its own inverse). -/
def mulSEquiv {n : ℕ} (c : PString n) : PString n ≃ PString n where
  toFun a := mulS c a
  invFun a := mulS c a
  left_inv a := mulS_cancel_left c a
  right_inv a := mulS_cancel_left c a

/-- Right multiplication by a fixed string is also a bijection. -/
def rmulSEquiv {n : ℕ} (s : PString n) : PString n ≃ PString n where
  toFun a := mulS a s
  invFun a := mulS a s
  left_inv a := mulS_cancel_right a s
  right_inv a := mulS_cancel_right a s

/-- A qubit operator in the sense of the `QubitOperator` objects the
notebook manipulates: every Pauli string carries a scalar coefficient
(zero for strings absent from the term dictionary).  Sums of Pauli terms,
Hamiltonian fragments and the rotation unitaries all live here. -/
@[ext] structure QubitOp (n : ℕ) where
  coeff : PString n → K

namespace QubitOp

variable {n : ℕ}

lemma opExt {f g : QubitOp n} (h : ∀ s, f.coeff s = g.coeff s) : f = g :=
  QubitOp.ext (funext h)

instance : Zero (QubitOp n) := ⟨⟨fun _ => 0⟩⟩

instance : Add (QubitOp n) := ⟨fun f g => ⟨fun s => f.coeff s + g.coeff s⟩⟩

instance : Neg (QubitOp n) := ⟨fun f => ⟨fun s => -f.coeff s⟩⟩

/-- The identity operator: the identity term with coefficient 1. -/
instance : One (QubitOp n) := ⟨⟨fun s => if s = idS n then 1 else 0⟩⟩

/-- Tensor-algebra product: distribute over all pairs of terms, multiply
the Pauli strings qubit-by-qubit, and fold the accumulated power of `i`
into the coefficient; like terms are combined (the representation is a
coefficient function, so combining is automatic). -/
instance : Mul (QubitOp n) :=
  ⟨fun f g => ⟨fun s => ∑ a, f.coeff a * g.coeff (mulS a s) * phaseK (phS a (mulS a s))⟩⟩

instance : SMul K (QubitOp n) := ⟨fun c f => ⟨fun s => c * f.coeff s⟩⟩

@[simp] lemma coeff_zero (s : PString n) : (0 : QubitOp n).coeff s = 0 := rfl

@[simp] lemma coeff_add (f g : QubitOp n) (s : PString n) :
    (f + g).coeff s = f.coeff s + g.coeff s := rfl

@[simp] lemma coeff_neg (f : QubitOp n) (s : PString n) : (-f).coeff s = -f.coeff s := rfl

lemma coeff_one (s : PString n) : (1 : QubitOp n).coeff s = if s = idS n then 1 else 0 := rfl

lemma coeff_mul (f g : QubitOp n) (s : PString n) :
    (f * g).coeff s = ∑ a, f.coeff a * g.coeff (mulS a s) * phaseK (phS a (mulS a s)) := rfl

@[simp] lemma coeff_smul (c : K) (f : QubitOp n) (s : PString n) :
    (c • f).coeff s = c * f.coeff s := rfl

instance : AddCommGroup (QubitOp n) where
  add_assoc f g h := by apply opExt; intro s; simp; ring
  zero_add f := by apply opExt; intro s; simp
  add_zero f := by apply opExt; intro s; simp
  add_comm f g := by apply opExt; intro s; simp; ring
  neg_add_cancel f := by apply opExt; intro s; simp
  nsmul := nsmulRec
  zsmul := zsmulRec

lemma mulS_rearr2 {n : ℕ} (a b s : PString n) :
    mulS (mulS a b) s = mulS b (mulS a s) := by
  rw [mulS_comm a b, mulS_assoc]

lemma mul_phase_key2 {n : ℕ} (a b s : PString n) :
    phaseK (phS b (mulS b (mulS a s))) * phaseK (phS a (mulS a s)) =
      phaseK (phS a b) * phaseK (phS (mulS a b) (mulS b (mulS a s))) := by
  rw [← phaseK_add, ← phaseK_add]
  congr 1
  have hc := phS_cocycle a b (mulS b (mulS a s))
  rw [mulS_cancel_left] at hc
  exact hc.symm

instance : Ring (QubitOp n) :=
  { (inferInstance : AddCommGroup (QubitOp n)) with
    left_distrib := fun f g h => by
      apply opExt
      intro s
      simp only [coeff_mul, coeff_add]
      rw [← Finset.sum_add_distrib]
      exact Finset.sum_congr rfl fun a _ => by ring
    right_distrib := fun f g h => by
      apply opExt
      intro s
      simp only [coeff_mul, coeff_add]
      rw [← Finset.sum_add_distrib]
      exact Finset.sum_congr rfl fun a _ => by ring
    zero_mul := fun f => by
      apply opExt
      intro s
      simp [coeff_mul]
    mul_zero := fun f => by
      apply opExt
      intro s
      simp [coeff_mul]
    one_mul := fun f => by
      apply opExt
      intro s
      rw [coeff_mul, Finset.sum_eq_single (idS n)]
      · rw [coeff_one, if_pos rfl, mulS_idS_left, phS_idS_left, phaseK_zero]
        ring
      · intro b _ hb
        rw [coeff_one, if_neg hb]
        ring
      · intro h
        exact absurd (Finset.mem_univ _) h
    mul_one := fun f => by
      apply opExt
      intro s
      rw [coeff_mul, Finset.sum_eq_single s]
      · rw [mulS_self, phS_idS_right, phaseK_zero, coeff_one, if_pos rfl]
        ring
      · intro b _ hb
        have hbs : mulS b s ≠ idS n := by
          intro he
          apply hb
          have h2 := congrArg (mulS b) he
          rw [mulS_cancel_left, mulS_idS_right] at h2
          exact h2.symm
        rw [coeff_one, if_neg hbs]
        ring
      · intro h
        exact absurd (Finset.mem_univ _) h
    mul_assoc := fun f g h => by
      apply opExt
      intro s
      have L : ((f * g) * h).coeff s =
          ∑ b, ∑ a, f.coeff a * g.coeff (mulS a b) * h.coeff (mulS b s) *
            (phaseK (phS a (mulS a b)) * phaseK (phS b (mulS b s))) := by
        rw [coeff_mul]
        refine Finset.sum_congr rfl fun b _ => ?_
        rw [coeff_mul, Finset.sum_mul, Finset.sum_mul]
        exact Finset.sum_congr rfl fun a _ => by ring
      have R : (f * (g * h)).coeff s =
          ∑ a, ∑ c, f.coeff a * g.coeff c * h.coeff (mulS c (mulS a s)) *
            (phaseK (phS c (mulS c (mulS a s))) * phaseK (phS a (mulS a s))) := by
        rw [coeff_mul]
        refine Finset.sum_congr rfl fun a _ => ?_
        rw [coeff_mul, Finset.mul_sum, Finset.sum_mul]
        exact Finset.sum_congr rfl fun c _ => by ring
      rw [L, R, Finset.sum_comm]
      refine Finset.sum_congr rfl fun a _ => ?_
      refine Eq.symm (Fintype.sum_equiv (mulSEquiv a) _ _ fun b => ?_)
      simp only [mulSEquiv, Equiv.coe_fn_mk, mulS_cancel_left, mulS_rearr2]
      rw [mul_phase_key2] }

lemma smul_mul_left (c : K) (f g : QubitOp n) : (c • f) * g = c • (f * g) := by
  apply opExt
  intro s
  simp only [coeff_mul, coeff_smul]
  rw [Finset.mul_sum]
  exact Finset.sum_congr rfl fun a _ => by ring

lemma smul_mul_right (c : K) (f g : QubitOp n) : f * (c • g) = c • (f * g) := by
  apply opExt
  intro s
  simp only [coeff_mul, coeff_smul]
  rw [Finset.mul_sum]
  exact Finset.sum_congr rfl fun a _ => by ring

lemma smul_smul_op (c d : K) (f : QubitOp n) : c • (d • f) = (c * d) • f := by
  apply opExt
  intro s
  simp only [coeff_smul]
  ring

lemma smul_add_op (c : K) (f g : QubitOp n) : c • (f + g) = c • f + c • g := by
  apply opExt
  intro s
  simp only [coeff_smul, coeff_add]
  ring

/-- The single Pauli term `c·s`: coefficient `c` on the string `s`, zero
elsewhere.  This is the building block of every Hamiltonian fragment and
every rotation factor. -/
def ofTerm (c : K) (s : PString n) : QubitOp n := ⟨fun t => if t = s then c else 0⟩

lemma coeff_ofTerm (c : K) (s t : PString n) :
    (ofTerm c s).coeff t = if t = s then c else 0 := rfl

lemma one_eq_ofTerm : (1 : QubitOp n) = ofTerm 1 (idS n) := rfl

lemma smul_ofTerm (c d : K) (s : PString n) : c • ofTerm d s = ofTerm (c * d) s := by
  apply opExt
  intro t
  simp only [coeff_smul, coeff_ofTerm]
  split <;> ring

/-- Product of two single terms: multiply coefficients, multiply strings,
fold in the phase. -/
lemma ofTerm_mul (c d : K) (a b : PString n) :
    ofTerm c a * ofTerm d b = ofTerm (c * d * phaseK (phS a b)) (mulS a b) := by
  apply opExt
  intro s
  rw [coeff_mul, Finset.sum_eq_single a]
  · rw [coeff_ofTerm, if_pos rfl, coeff_ofTerm, coeff_ofTerm]
    by_cases hb : mulS a s = b
    · have hs : s = mulS a b := by rw [← hb, mulS_cancel_left]
      rw [if_pos hb, if_pos hs, hb]
    · have hs : s ≠ mulS a b := by
        intro he
        apply hb
        rw [he, mulS_cancel_left]
      rw [if_neg hb, if_neg hs]
      ring
  · intro t _ ht
    rw [coeff_ofTerm, if_neg ht]
    ring
  · intro h
    exact absurd (Finset.mem_univ _) h

lemma ofTerm_self_mul (a : PString n) : ofTerm (1 : K) a * ofTerm 1 a = 1 := by
  rw [ofTerm_mul, mulS_self, phS_self, phaseK_zero, one_eq_ofTerm]
  norm_num

/-- An identity-string term is a central scalar: multiplying by it on the
left scales every coefficient. -/
lemma ofTerm_idS_mul (c : K) (f : QubitOp n) : ofTerm c (idS n) * f = c • f := by
  apply opExt
  intro s
  rw [coeff_mul, Finset.sum_eq_single (idS n)]
  · rw [coeff_ofTerm, if_pos rfl, mulS_idS_left, phS_idS_left, phaseK_zero, coeff_smul]
    ring
  · intro t _ ht
    rw [coeff_ofTerm, if_neg ht]
    ring
  · intro h
    exact absurd (Finset.mem_univ _) h

lemma mul_ofTerm_idS (c : K) (f : QubitOp n) : f * ofTerm c (idS n) = c • f := by
  apply opExt
  intro s
  rw [coeff_mul, Finset.sum_eq_single s]
  · rw [mulS_self, phS_idS_right, phaseK_zero, coeff_ofTerm, if_pos rfl, coeff_smul]
    ring
  · intro b _ hb
    have hbs : mulS b s ≠ idS n := by
      intro he
      apply hb
      have h2 := congrArg (mulS b) he
      rw [mulS_cancel_left, mulS_idS_right] at h2
      exact h2.symm
    rw [coeff_ofTerm, if_neg hbs]
    ring
  · intro h
    exact absurd (Finset.mem_univ _) h

/-- Commutation sign of two Pauli strings: they commute as operators when
`phS a b = phS b a` and anticommute when the phases differ by 2. -/
def commS {n : ℕ} (a b : PString n) : Prop := phS a b = phS b a

/-- Anticommutation of two Pauli strings. -/
def antiS {n : ℕ} (a b : PString n) : Prop := phS a b = phS b a + 2

instance {n : ℕ} (a b : PString n) : Decidable (commS a b) := by
  unfold commS; infer_instance

instance {n : ℕ} (a b : PString n) : Decidable (antiS a b) := by
  unfold antiS; infer_instance

lemma ofTerm_commute {c d : K} {a b : PString n} (h : commS a b) :
    ofTerm c a * ofTerm d b = ofTerm d b * ofTerm c a := by
  rw [ofTerm_mul, ofTerm_mul, mulS_comm b a, h]
  congr 1
  ring

lemma ofTerm_anticommute {c d : K} {a b : PString n} (h : antiS a b) :
    ofTerm c a * ofTerm d b = -(ofTerm d b * ofTerm c a) := by
  rw [ofTerm_mul, ofTerm_mul, mulS_comm b a]
  have hba : phS b a = phS a b + 2 := by
    have h4 : (2 : ZMod 4) + 2 = 0 := by decide
    rw [h, add_assoc, h4, add_zero]
  rw [hba, phaseK_add_two]
  apply opExt
  intro s
  simp only [coeff_neg, coeff_ofTerm]
  split <;> ring

/-- The adjoint: every Pauli string is a Hermitian operator, so the dagger
conjugates each coefficient. -/
def dag (f : QubitOp n) : QubitOp n := ⟨fun s => K.conj (f.coeff s)⟩

lemma coeff_dag (f : QubitOp n) (s : PString n) : (dag f).coeff s = K.conj (f.coeff s) := rfl

lemma dag_one : dag (1 : QubitOp n) = 1 := by
  apply opExt
  intro s
  rw [coeff_dag, coeff_one]
  split
  · exact K.conj_one
  · exact K.conj_zero

lemma dag_add (f g : QubitOp n) : dag (f + g) = dag f + dag g := by
  apply opExt
  intro s
  simp only [coeff_dag, coeff_add]
  exact K.conj_add _ _

lemma dag_smul (c : K) (f : QubitOp n) : dag (c • f) = K.conj c • dag f := by
  apply opExt
  intro s
  simp only [coeff_dag, coeff_smul]
  exact K.conj_mul _ _

lemma dag_ofTerm (c : K) (s : PString n) : dag (ofTerm c s) = ofTerm (K.conj c) s := by
  apply opExt
  intro t
  rw [coeff_dag, coeff_ofTerm, coeff_ofTerm]
  split
  · rfl
  · exact K.conj_zero

lemma conj_sum {α : Type} (t : Finset α) (f : α → K) :
    K.conj (∑ x ∈ t, f x) = ∑ x ∈ t, K.conj (f x) := by
  classical
  induction t using Finset.induction_on with
  | empty => simp [K.conj_zero]
  | insert hx ih => rw [Finset.sum_insert hx, Finset.sum_insert hx, K.conj_add, ih]

/-- The dagger reverses products. -/
lemma dag_mul (f g : QubitOp n) : dag (f * g) = dag g * dag f := by
  apply opExt
  intro s
  rw [coeff_dag, coeff_mul, coeff_mul, conj_sum]
  refine Fintype.sum_equiv (rmulSEquiv s) _ _ fun a => ?_
  simp only [rmulSEquiv, Equiv.coe_fn_mk, mulS_cancel_right]
  rw [K.conj_mul, K.conj_mul, conj_phaseK]
  have hph : -phS a (mulS a s) = phS (mulS a s) a :=
    neg_eq_of_add_eq_zero_right (phS_antisym a (mulS a s))
  rw [hph]
  rw [coeff_dag, coeff_dag]
  ring

lemma hf_sq_smul_double (x : QubitOp n) : (K.hf * K.hf) • (x + x) = x := by
  apply opExt
  intro s
  rw [coeff_smul, coeff_add]
  have h : K.hf * K.hf * (x.coeff s + x.coeff s) =
      (K.hf * K.hf + K.hf * K.hf) * x.coeff s := by ring
  rw [h, K.hf_hf_add, one_mul]

/-- An elementary rotation factor `(P + Q)/√2`, the Hermitian Clifford
factor out of which the basis-change unitaries are built (a Hadamard for
`P = X_q`, `Q = Z_q`, and its `Y` analogue; Stage-A entangling rotations
take multi-qubit `P`, `Q`). -/
def rotFactor (p q : PString n) : QubitOp n := K.hf • (ofTerm 1 p + ofTerm 1 q)

lemma rotFactor_self_mul {p q : PString n} (h : antiS p q) :
    rotFactor p q * rotFactor p q = 1 := by
  unfold rotFactor
  rw [smul_mul_left, smul_mul_right, smul_smul_op]
  have hx : (ofTerm (1 : K) p + ofTerm 1 q) * (ofTerm 1 p + ofTerm 1 q) = 1 + 1 := by
    rw [add_mul, mul_add, mul_add, ofTerm_self_mul, ofTerm_self_mul, ofTerm_anticommute h]
    abel
  rw [hx, hf_sq_smul_double]

lemma rotFactor_dag (p q : PString n) : dag (rotFactor p q) = rotFactor p q := by
  unfold rotFactor
  rw [dag_smul, dag_add, dag_ofTerm, dag_ofTerm, K.conj_hf, K.conj_one]

lemma rotFactor_commute {p q p2 q2 : PString n} (h1 : commS p p2) (h2 : commS p q2)
    (h3 : commS q p2) (h4 : commS q q2) :
    rotFactor p q * rotFactor p2 q2 = rotFactor p2 q2 * rotFactor p q := by
  unfold rotFactor
  rw [smul_mul_left, smul_mul_right, smul_smul_op, smul_mul_left, smul_mul_right, smul_smul_op]
  congr 1
  rw [add_mul, mul_add, mul_add, add_mul, mul_add, mul_add,
    ofTerm_commute h1, ofTerm_commute h2, ofTerm_commute h3, ofTerm_commute h4]
  abel

/-- Conjugating a single term that commutes with both halves of a factor
leaves it unchanged. -/
lemma rotFactor_conj_comm {p q t : PString n} {c : K} (hpq : antiS p q)
    (hp : commS t p) (hq : commS t q) :
    rotFactor p q * ofTerm c t * rotFactor p q = ofTerm c t := by
  have hc : ofTerm c t * rotFactor p q = rotFactor p q * ofTerm c t := by
    unfold rotFactor
    rw [smul_mul_right, smul_mul_left]
    congr 1
    rw [mul_add, add_mul, ofTerm_commute hp, ofTerm_commute hq]
  calc rotFactor p q * ofTerm c t * rotFactor p q
      = rotFactor p q * (ofTerm c t * rotFactor p q) := by rw [mul_assoc]
    _ = rotFactor p q * (rotFactor p q * ofTerm c t) := by rw [hc]
    _ = (rotFactor p q * rotFactor p q) * ofTerm c t := by rw [mul_assoc]
    _ = ofTerm c t := by rw [rotFactor_self_mul hpq, one_mul]

/-- Conjugating a single term that commutes with `P` but anticommutes with
`Q` multiplies it by `P·Q` (this is how a Hadamard-like factor turns an
`X` into a `Z`). -/
lemma rotFactor_conj_flip {p q t : PString n} {c : K} (hpq : antiS p q)
    (hp : commS t p) (hq : antiS t q) :
    rotFactor p q * ofTerm c t * rotFactor p q =
      ofTerm c t * (ofTerm 1 p * ofTerm 1 q) := by
  have h2 : ofTerm (1 : K) q * ofTerm c t = -(ofTerm c t * ofTerm 1 q) := by
    rw [ofTerm_anticommute hq, neg_neg]
  have hBA : ofTerm (1 : K) q * ofTerm 1 p = -(ofTerm 1 p * ofTerm 1 q) := by
    rw [ofTerm_anticommute hpq, neg_neg]
  have hX : (ofTerm 1 p + ofTerm 1 q) * ofTerm c t * (ofTerm 1 p + ofTerm 1 q) =
      ofTerm c t * (ofTerm 1 p * ofTerm 1 q) + ofTerm c t * (ofTerm 1 p * ofTerm 1 q) := by
    rw [add_mul, add_mul, mul_add, mul_add]
    have hATA : ofTerm (1 : K) p * ofTerm c t * ofTerm 1 p = ofTerm c t := by
      rw [← ofTerm_commute hp, mul_assoc, ofTerm_self_mul, mul_one]
    have hATB : ofTerm (1 : K) p * ofTerm c t * ofTerm 1 q =
        ofTerm c t * (ofTerm 1 p * ofTerm 1 q) := by
      rw [← ofTerm_commute hp, mul_assoc]
    have hBTA : ofTerm (1 : K) q * ofTerm c t * ofTerm 1 p =
        ofTerm c t * (ofTerm 1 p * ofTerm 1 q) := by
      rw [h2, neg_mul, mul_assoc, hBA, mul_neg, neg_neg]
    have hBTB : ofTerm (1 : K) q * ofTerm c t * ofTerm 1 q = -(ofTerm c t) := by
      rw [h2, neg_mul, mul_assoc, ofTerm_self_mul, mul_one]
    rw [hATA, hATB, hBTA, hBTB]
    abel
  unfold rotFactor
  rw [smul_mul_left, smul_mul_left, smul_mul_right, smul_smul_op, hX, hf_sq_smul_double]

end QubitOp

open QubitOp

/-- A single weighted Pauli term: a qubit-to-operator mapping (identity
implicit as `Pauli.I`) together with a scalar coefficient. -/
@[ext] structure PTerm (n : ℕ) where
  s : PString n
  c : K
deriving DecidableEq

/-- Modelled from the spec: `qubit_wise_commutes` belongs to
`Week2_VQE/utility.py`, which is not part of the source snapshot (the
notebook only imports it); spec §4.1 defines it as true iff for every
qubit index present in both terms the two single-qubit operators are
identical or at least one is absent (identity). -/
def qubit_wise_commutes {n : ℕ} (a b : PString n) : Bool :=
  decide (∀ q, a q = b q ∨ a q = Pauli.I ∨ b q = Pauli.I)

/-- Number of qubits at which the two strings carry different,
non-identity operators. -/
def diffCount {n : ℕ} (a b : PString n) : ℕ :=
  (Finset.univ.filter fun q => a q ≠ b q ∧ a q ≠ Pauli.I ∧ b q ≠ Pauli.I).card

/-- Modelled from the spec: `fully_commutes` of `utility.py` (absent from
the snapshot); spec §4.1 defines it as true iff the number of qubits
where the two terms have different non-identity operators is even. -/
def fully_commutes {n : ℕ} (a b : PString n) : Bool := decide (diffCount a b % 2 = 0)

/-- One step of the greedy first-fit grouping (spec §4.3 step 3): scan the
existing groups in creation order and append the term to the first group
whose members all satisfy the commutation predicate against it; if none
fits, open a new singleton group at the end. -/
def addToGroups {n : ℕ} (pred : PString n → PString n → Bool) :
    List (List (PTerm n)) → PTerm n → List (List (PTerm n))
  | [], t => [[t]]
  | g :: gs, t =>
      if g.all fun u => pred u.s t.s then (g ++ [t]) :: gs
      else g :: addToGroups pred gs t

/-- Modelled from the spec: the grouping engine of `utility.py` (absent
from the snapshot); spec §4.3 prescribes a greedy first-fit partition of
the term list, processing terms in a fixed deterministic order (the input
order here). -/
def groupTerms {n : ℕ} (pred : PString n → PString n → Bool) (H : List (PTerm n)) :
    List (List (PTerm n)) :=
  H.foldl (addToGroups pred) []

/-- Modelled from the spec: `get_qwc_group` (qubit-wise mode of the
grouping engine, §4.3). -/
def get_qwc_group {n : ℕ} (H : List (PTerm n)) : List (List (PTerm n)) :=
  groupTerms qubit_wise_commutes H

/-- Modelled from the spec: `get_commuting_group` (full-commutation mode
of the grouping engine, §4.3). -/
def get_commuting_group {n : ℕ} (H : List (PTerm n)) : List (List (PTerm n)) :=
  groupTerms fully_commutes H

/-- Product of a list of elementary rotation factors, in order. -/
def rotProduct {n : ℕ} (l : List (PString n × PString n)) : QubitOp n :=
  (l.map fun pq => rotFactor pq.1 pq.2).prod

/-- Validity of a factor selection: the two halves of each factor
anticommute (so each factor is unitary), and distinct factors commute
halfwise (so the factors commute and the product is Hermitian, which is
what the notebook output `U * U = 1 []` exhibits). -/
def ValidFactors {n : ℕ} (l : List (PString n × PString n)) : Prop :=
  (∀ pq ∈ l, antiS pq.1 pq.2) ∧
  l.Pairwise fun x y => commS x.1 y.1 ∧ commS x.1 y.2 ∧ commS x.2 y.1 ∧ commS x.2 y.2

/-- Modelled from the spec: `get_qwc_unitary` of `utility.py` (absent from
the snapshot) builds the Stage-A Clifford rotation taking a mutually
commuting group to qubit-wise commuting form; spec §4.4/§9 leave the
exact selection of entangling rotations implementation-defined behind the
stated contract, so the selected factor pairs are taken as an argument. -/
def get_qwc_unitary {n : ℕ} (choice : List (PString n × PString n)) : QubitOp n :=
  rotProduct choice

/-- The consensus operator of a group at a qubit: the operator carried
there by the first term that is not identity on that qubit. -/
def consensus {n : ℕ} (G : List (PTerm n)) (q : Fin n) : Pauli :=
  match G.find? fun t => decide (t.s q ≠ Pauli.I) with
  | some t => t.s q
  | none => Pauli.I

/-- The Pauli string acting as `p` on qubit `q` and identity elsewhere. -/
def singleS {n : ℕ} (q : Fin n) (p : Pauli) : PString n :=
  fun r => if r = q then p else Pauli.I

/-- Qubits at which the group needs a basis-change rotation into `Z`. -/
def zformQubits {n : ℕ} (G : List (PTerm n)) : List (Fin n) :=
  (List.finRange n).filter fun q =>
    decide (consensus G q = Pauli.X ∨ consensus G q = Pauli.Y)

/-- The factor pairs of the all-Z rotation: a Hadamard-like factor
`(X_q + Z_q)/√2` for every consensus-`X` qubit and the analogue
`(Y_q + Z_q)/√2` for every consensus-`Y` qubit. -/
def zformPairs {n : ℕ} (G : List (PTerm n)) : List (PString n × PString n) :=
  (zformQubits G).map fun q => (singleS q (consensus G q), singleS q Pauli.Z)

/-- Modelled from the spec: `get_zform_unitary` of `utility.py` (absent
from the snapshot); spec §4.4 Stage B: for each qubit whose consensus
operator is `X` or `Y`, apply the fixed single-qubit basis-change
rotation taking it to `Z`, leaving other qubits unaffected. -/
def get_zform_unitary {n : ℕ} (G : List (PTerm n)) : QubitOp n :=
  rotProduct (zformPairs G)

/-- The error raised when a group handed to synthesis is not pairwise
commuting (spec §4.4 Failure, §7). -/
inductive SynthError where
  | ungroupableTerms
deriving DecidableEq

/-- Pairwise commutation check of a group under the chosen predicate. -/
def pairwise_commuting {n : ℕ} (pred : PString n → PString n → Bool)
    (G : List (PTerm n)) : Bool :=
  G.all fun a => G.all fun b => pred a.s b.s

/-- Modelled from the spec: basis-rotation synthesis (§4.4) validates its
precondition first and fails with `UngroupableTermsError` before any
rotation is constructed when the supplied group is not pairwise
commuting under the chosen predicate. -/
def synthesize {n : ℕ} (pred : PString n → PString n → Bool) (G : List (PTerm n)) :
    Except SynthError (QubitOp n) :=
  if pairwise_commuting pred G then Except.ok (get_zform_unitary G)
  else Except.error SynthError.ungroupableTerms

lemma rotProduct_nil {n : ℕ} : rotProduct ([] : List (PString n × PString n)) = 1 := rfl

lemma rotProduct_cons {n : ℕ} (pq : PString n × PString n)
    (l : List (PString n × PString n)) :
    rotProduct (pq :: l) = rotFactor pq.1 pq.2 * rotProduct l := by
  unfold rotProduct
  rw [List.map_cons, List.prod_cons]

lemma validFactors_tail {n : ℕ} {pq : PString n × PString n}
    {l : List (PString n × PString n)} (h : ValidFactors (pq :: l)) : ValidFactors l :=
  ⟨fun x hx => h.1 x (List.mem_cons_of_mem _ hx), (List.pairwise_cons.mp h.2).2⟩

lemma rotFactor_comm_prod {n : ℕ} {a b : PString n}
    {l : List (PString n × PString n)} (h : ValidFactors ((a, b) :: l)) :
    Commute (rotFactor a b) (rotProduct l) := by
  unfold rotProduct
  apply Commute.list_prod_right
  intro x hx
  obtain ⟨y, hy, rfl⟩ := List.mem_map.mp hx
  have hr := (List.pairwise_cons.mp h.2).1 y hy
  exact rotFactor_commute hr.1 hr.2.1 hr.2.2.1 hr.2.2.2

lemma rotProduct_self {n : ℕ} (l : List (PString n × PString n)) (h : ValidFactors l) :
    rotProduct l * rotProduct l = 1 := by
  induction l with
  | nil => rw [rotProduct_nil, one_mul]
  | cons pq l ih =>
      have hc := rotFactor_comm_prod h
      have hanti : antiS pq.1 pq.2 := h.1 pq (List.mem_cons_self _ _)
      rw [rotProduct_cons]
      calc (rotFactor pq.1 pq.2 * rotProduct l) * (rotFactor pq.1 pq.2 * rotProduct l)
          = rotFactor pq.1 pq.2 * ((rotProduct l * rotFactor pq.1 pq.2) * rotProduct l) := by
            rw [mul_assoc, mul_assoc]
        _ = rotFactor pq.1 pq.2 * ((rotFactor pq.1 pq.2 * rotProduct l) * rotProduct l) := by
            rw [← hc.eq]
        _ = (rotFactor pq.1 pq.2 * rotFactor pq.1 pq.2) * (rotProduct l * rotProduct l) := by
            simp only [mul_assoc]
        _ = 1 := by rw [rotFactor_self_mul hanti, ih (validFactors_tail h), one_mul]

lemma rotProduct_dag {n : ℕ} (l : List (PString n × PString n)) (h : ValidFactors l) :
    dag (rotProduct l) = rotProduct l := by
  induction l with
  | nil => rw [rotProduct_nil]; exact dag_one
  | cons pq l ih =>
      rw [rotProduct_cons, dag_mul, ih (validFactors_tail h), rotFactor_dag]
      exact (rotFactor_comm_prod h).eq.symm

lemma singleS_self {n : ℕ} (q : Fin n) (p : Pauli) : singleS q p q = p := by
  unfold singleS
  rw [if_pos rfl]

lemma singleS_other {n : ℕ} {q r : Fin n} (h : r ≠ q) (p : Pauli) :
    singleS q p r = Pauli.I := by
  unfold singleS
  rw [if_neg h]

lemma phS_singleS_left {n : ℕ} (q : Fin n) (y : Pauli) (b : PString n) :
    phS (singleS q y) b = Pauli.ph y (b q) := by
  unfold phS
  rw [Finset.sum_eq_single q]
  · rw [singleS_self]
  · intro r _ hr
    rw [singleS_other hr, Pauli.ph_i_left]
  · intro h
    exact absurd (Finset.mem_univ _) h

lemma phS_singleS_right {n : ℕ} (q : Fin n) (y : Pauli) (b : PString n) :
    phS b (singleS q y) = Pauli.ph (b q) y := by
  unfold phS
  rw [Finset.sum_eq_single q]
  · rw [singleS_self]
  · intro r _ hr
    rw [singleS_other hr, Pauli.ph_i_right]
  · intro h
    exact absurd (Finset.mem_univ _) h

lemma antiS_singleS {n : ℕ} {q : Fin n} {p : Pauli}
    (hp : p = Pauli.X ∨ p = Pauli.Y) :
    antiS (singleS q p) (singleS q Pauli.Z) := by
  unfold antiS
  rw [phS_singleS_left, phS_singleS_left, singleS_self, singleS_self]
  rcases hp with rfl | rfl <;> decide

lemma commS_singleS_ne {n : ℕ} {q r : Fin n} (h : q ≠ r) (y z : Pauli) :
    commS (singleS q y) (singleS r z) := by
  unfold commS
  rw [phS_singleS_left, phS_singleS_left, singleS_other h, singleS_other (Ne.symm h),
    Pauli.ph_i_right, Pauli.ph_i_right]

lemma commS_of_i_at {n : ℕ} {t : PString n} {q : Fin n} (ht : t q = Pauli.I) (y : Pauli) :
    commS t (singleS q y) := by
  unfold commS
  rw [phS_singleS_right, phS_singleS_left, ht, Pauli.ph_i_left, Pauli.ph_i_right]

lemma commS_of_eq_at {n : ℕ} {t : PString n} {q : Fin n} {y : Pauli} (ht : t q = y) :
    commS t (singleS q y) := by
  unfold commS
  rw [phS_singleS_right, phS_singleS_left, ht]

lemma antiS_z_at {n : ℕ} {t : PString n} {q : Fin n} {p : Pauli} (ht : t q = p)
    (hp : p = Pauli.X ∨ p = Pauli.Y) :
    antiS t (singleS q Pauli.Z) := by
  unfold antiS
  rw [phS_singleS_right, phS_singleS_left, ht]
  rcases hp with rfl | rfl <;> decide

/-- Any choice of basis-change qubits with distinct indices and `X`/`Y`
consensus operators yields a valid factor list. -/
lemma validFactors_of_qubits {n : ℕ} (G : List (PTerm n)) (qs : List (Fin n))
    (hnodup : qs.Nodup)
    (hqs : ∀ q ∈ qs, consensus G q = Pauli.X ∨ consensus G q = Pauli.Y) :
    ValidFactors (qs.map fun q => (singleS q (consensus G q), singleS q Pauli.Z)) := by
  constructor
  · intro pq hpq
    obtain ⟨q, hq, rfl⟩ := List.mem_map.mp hpq
    exact antiS_singleS (hqs q hq)
  · refine List.Pairwise.map _ (fun a b hab => ?_) hnodup
    exact ⟨commS_singleS_ne hab _ _, commS_singleS_ne hab _ _,
      commS_singleS_ne hab _ _, commS_singleS_ne hab _ _⟩

lemma zformQubits_nodup {n : ℕ} (G : List (PTerm n)) : (zformQubits G).Nodup :=
  (List.nodup_finRange n).filter _

lemma zformQubits_mem {n : ℕ} (G : List (PTerm n)) {q : Fin n} (hq : q ∈ zformQubits G) :
    consensus G q = Pauli.X ∨ consensus G q = Pauli.Y := by
  have := List.mem_filter.mp hq
  exact of_decide_eq_true this.2

/-- The z-form factor list is always valid: its factors act on distinct
qubits and pair an `X` or `Y` with a `Z` on the same qubit. -/
lemma zform_valid {n : ℕ} (G : List (PTerm n)) : ValidFactors (zformPairs G) :=
  validFactors_of_qubits G (zformQubits G) (zformQubits_nodup G)
    (fun q hq => zformQubits_mem G hq)

/-- The string obtained from `S` by replacing its non-identity entries at
the listed qubits by `Z`. -/
def zify {n : ℕ} (qs : List (Fin n)) (S : PString n) : PString n :=
  fun r => if r ∈ qs then (if S r = Pauli.I then Pauli.I else Pauli.Z) else S r

lemma zify_nil {n : ℕ} (S : PString n) : zify [] S = S := by
  funext r
  unfold zify
  rw [if_neg (List.not_mem_nil r)]

lemma coeff_key (c : K) (u v : ZMod 4) (h : u + v = 0) :
    c * (1 * 1 * phaseK u) * phaseK v = c := by
  have h1 : phaseK u * phaseK v = 1 := by rw [← phaseK_add, h, phaseK_zero]
  calc c * (1 * 1 * phaseK u) * phaseK v = c * (phaseK u * phaseK v) := by ring
    _ = c := by rw [h1, mul_one]

/-- Multiplying a term carrying `p ∈ {X, Y}` at `q` by the product
`p_q · Z_q` replaces that entry by `Z` and leaves the coefficient
unchanged. -/
lemma flip_result {n : ℕ} (q : Fin n) (p : Pauli) (hp : p = Pauli.X ∨ p = Pauli.Y)
    (c : K) (t : PString n) (ht : t q = p) :
    ofTerm c t * (ofTerm 1 (singleS q p) * ofTerm 1 (singleS q Pauli.Z)) =
      ofTerm c (fun r => if r = q then Pauli.Z else t r) := by
  have hstr : mulS (singleS q p) (singleS q Pauli.Z) = singleS q (p.mul Pauli.Z) := by
    funext r
    unfold mulS singleS
    by_cases hr : r = q
    · rw [if_pos hr, if_pos hr, if_pos hr]
    · rw [if_neg hr, if_neg hr, if_neg hr, Pauli.mul_i_left]
  have hph1 : phS (singleS q p) (singleS q Pauli.Z) = Pauli.ph p Pauli.Z := by
    rw [phS_singleS_left, singleS_self]
  rw [ofTerm_mul, hstr, hph1, ofTerm_mul]
  have hph2 : phS t (singleS q (p.mul Pauli.Z)) = Pauli.ph p (p.mul Pauli.Z) := by
    rw [phS_singleS_right, ht]
  have hstr2 : mulS t (singleS q (p.mul Pauli.Z)) =
      fun r => if r = q then Pauli.Z else t r := by
    funext r
    unfold mulS singleS
    by_cases hr : r = q
    · rw [if_pos hr, if_pos hr, hr, ht, Pauli.mul_cancel_left]
    · rw [if_neg hr, if_neg hr, Pauli.mul_i_right]
  rw [hph2, hstr2]
  congr 1
  rcases hp with rfl | rfl
  · exact coeff_key c _ _ (by decide)
  · exact coeff_key c _ _ (by decide)

set_option maxHeartbeats 1000000 in
/-- Conjugating a single term by the basis-change factors attached to a
list of distinct qubits (each carrying the term's operator or identity)
replaces the term's non-identity entries at those qubits by `Z`. -/
lemma zform_conj_list {n : ℕ} (G : List (PTerm n)) (c : K) (S : PString n)
    (qs : List (Fin n)) (hnodup : qs.Nodup)
    (hqs : ∀ q ∈ qs, consensus G q = Pauli.X ∨ consensus G q = Pauli.Y)
    (hS : ∀ q ∈ qs, S q = Pauli.I ∨ S q = consensus G q) :
    rotProduct (qs.map fun q => (singleS q (consensus G q), singleS q Pauli.Z)) *
        ofTerm c S *
        rotProduct (qs.map fun q => (singleS q (consensus G q), singleS q Pauli.Z)) =
      ofTerm c (zify qs S) := by
  induction qs with
  | nil =>
      rw [List.map_nil]
      rw [show rotProduct ([] : List (PString n × PString n)) = 1 from rfl]
      rw [one_mul, mul_one, zify_nil]
  | cons q qs ih =>
      have hq_not_mem : q ∉ qs := (List.nodup_cons.mp hnodup).1
      have htail_nodup : qs.Nodup := (List.nodup_cons.mp hnodup).2
      have hcons : consensus G q = Pauli.X ∨ consensus G q = Pauli.Y :=
        hqs q (List.mem_cons_self _ _)
      have hvalid : ValidFactors ((q :: qs).map
          fun q => (singleS q (consensus G q), singleS q Pauli.Z)) :=
        validFactors_of_qubits G (q :: qs) hnodup hqs
      have hvalid2 : ValidFactors ((singleS q (consensus G q), singleS q Pauli.Z) ::
          qs.map fun q => (singleS q (consensus G q), singleS q Pauli.Z)) := by
        have h2 := hvalid
        rw [List.map_cons] at h2
        exact h2
      have hcF : Commute
          (rotFactor (singleS q (consensus G q)) (singleS q Pauli.Z))
          (rotProduct (qs.map fun q => (singleS q (consensus G q), singleS q Pauli.Z))) :=
        rotFactor_comm_prod hvalid2
      have hinner := ih htail_nodup
        (fun r hr => hqs r (List.mem_cons_of_mem _ hr))
        (fun r hr => hS r (List.mem_cons_of_mem _ hr))
      rw [List.map_cons, rotProduct_cons]
      set F := rotFactor (singleS q (consensus G q)) (singleS q Pauli.Z) with hF
      set U := rotProduct (qs.map fun q => (singleS q (consensus G q), singleS q Pauli.Z))
        with hU
      have hmain : (F * U) * ofTerm c S * (F * U) = F * (ofTerm c (zify qs S)) * F := by
        calc (F * U) * ofTerm c S * (F * U)
            = F * (U * (ofTerm c S * (F * U))) := by simp only [mul_assoc]
          _ = F * (U * (ofTerm c S * (U * F))) := by rw [hcF.eq]
          _ = F * (U * ofTerm c S * U) * F := by simp only [mul_assoc]
          _ = F * (ofTerm c (zify qs S)) * F := by rw [hinner]
      rw [hmain]
      have hzq : zify qs S q = S q := by
        unfold zify
        rw [if_neg hq_not_mem]
      rcases hS q (List.mem_cons_self _ _) with hI | hP
      · -- identity at q: the factor leaves the term alone
        have hcomm1 : commS (zify qs S) (singleS q (consensus G q)) :=
          commS_of_i_at (by rw [hzq, hI]) _
        have hcomm2 : commS (zify qs S) (singleS q Pauli.Z) :=
          commS_of_i_at (by rw [hzq, hI]) _
        rw [hF, rotFactor_conj_comm (antiS_singleS hcons) hcomm1 hcomm2]
        congr 1
        funext r
        unfold zify
        by_cases hr : r ∈ qs
        · rw [if_pos hr, if_pos (List.mem_cons_of_mem _ hr)]
        · rw [if_neg hr]
          by_cases hrq : r = q
          · rw [if_pos (by rw [hrq]; exact List.mem_cons_self _ _)]
            rw [hrq, hI]
            rw [if_pos rfl]
          · have hnm : r ∉ q :: qs := by
              intro hmem
              rcases List.mem_cons.mp hmem with h1 | h2
              · exact hrq h1
              · exact hr h2
            rw [if_neg hnm]
      · -- consensus operator at q: the factor flips it to Z
        have hcomm1 : commS (zify qs S) (singleS q (consensus G q)) :=
          commS_of_eq_at (by rw [hzq, hP])
        have hanti2 : antiS (zify qs S) (singleS q Pauli.Z) :=
          antiS_z_at (by rw [hzq, hP]) hcons
        rw [hF, rotFactor_conj_flip (antiS_singleS hcons) hcomm1 hanti2]
        rw [flip_result q (consensus G q) hcons c (zify qs S) (by rw [hzq, hP])]
        congr 1
        funext r
        by_cases hrq : r = q
        · rw [if_pos hrq]
          unfold zify
          rw [if_pos (by rw [hrq]; exact List.mem_cons_self _ _)]
          rw [hrq]
          rw [if_neg (by rw [hP]; rcases hcons with h1 | h1 <;> rw [h1] <;> intro h2 <;> cases h2)]
        · rw [if_neg hrq]
          unfold zify
          by_cases hr : r ∈ qs
          · rw [if_pos hr, if_pos (List.mem_cons_of_mem _ hr)]
          · rw [if_neg hr]
            have hnm : r ∉ q :: qs := by
              intro hmem
              rcases List.mem_cons.mp hmem with h1 | h2
              · exact hrq h1
              · exact hr h2
            rw [if_neg hnm]

lemma addToGroups_flatten_perm {n : ℕ} (pred : PString n → PString n → Bool)
    (gs : List (List (PTerm n))) (t : PTerm n) :
    (addToGroups pred gs t).flatten.Perm (t :: gs.flatten) := by
  induction gs with
  | nil =>
      unfold addToGroups
      simp
  | cons g gs ih =>
      unfold addToGroups
      by_cases hfit : (g.all fun u => pred u.s t.s) = true
      · rw [if_pos hfit]
        simp only [List.flatten_cons]
        exact List.perm_append_comm.append_right _
      · rw [if_neg hfit]
        simp only [List.flatten_cons]
        exact (ih.append_left g).trans List.perm_middle

lemma foldl_flatten_perm {n : ℕ} (pred : PString n → PString n → Bool)
    (H : List (PTerm n)) :
    ∀ gs : List (List (PTerm n)),
      ((H.foldl (addToGroups pred) gs).flatten).Perm (gs.flatten ++ H) := by
  induction H with
  | nil => intro gs; simp
  | cons t H ih =>
      intro gs
      show ((H.foldl (addToGroups pred) (addToGroups pred gs t)).flatten).Perm
        (gs.flatten ++ t :: H)
      exact ((ih _).trans
        (((addToGroups_flatten_perm pred gs t).append_right H).trans
          List.perm_middle.symm))

/-- The greedy grouping is a partition: flattening the groups permutes
the input term list. -/
lemma groupTerms_flatten_perm {n : ℕ} (pred : PString n → PString n → Bool)
    (H : List (PTerm n)) : ((groupTerms pred H).flatten).Perm H := by
  have h := foldl_flatten_perm pred H []
  simpa [groupTerms] using h

lemma addToGroups_length {n : ℕ} (pred : PString n → PString n → Bool)
    (gs : List (List (PTerm n))) (t : PTerm n) :
    (addToGroups pred gs t).length ≤ gs.length + 1 := by
  induction gs with
  | nil => simp [addToGroups]
  | cons g gs ih =>
      unfold addToGroups
      by_cases hfit : (g.all fun u => pred u.s t.s) = true
      · rw [if_pos hfit]
        simp
      · rw [if_neg hfit]
        simp only [List.length_cons]
        omega

lemma foldl_length {n : ℕ} (pred : PString n → PString n → Bool) (H : List (PTerm n)) :
    ∀ gs : List (List (PTerm n)),
      (H.foldl (addToGroups pred) gs).length ≤ gs.length + H.length := by
  induction H with
  | nil => intro gs; simp
  | cons t H ih =>
      intro gs
      have h1 := ih (addToGroups pred gs t)
      have h2 := addToGroups_length pred gs t
      simp only [List.foldl_cons, List.length_cons]
      omega

/-- The greedy grouping never produces more groups than input terms. -/
lemma groupTerms_length {n : ℕ} (pred : PString n → PString n → Bool)
    (H : List (PTerm n)) : (groupTerms pred H).length ≤ H.length := by
  have h := foldl_length pred H []
  simpa [groupTerms] using h

/-- A group is closed under the predicate: all ordered pairs satisfy it. -/
def GroupOK {n : ℕ} (pred : PString n → PString n → Bool) (g : List (PTerm n)) : Prop :=
  ∀ a ∈ g, ∀ b ∈ g, pred a.s b.s = true

lemma addToGroups_ok {n : ℕ} (pred : PString n → PString n → Bool)
    (hsymm : ∀ x y : PString n, pred x y = pred y x)
    (hrefl : ∀ x : PString n, pred x x = true)
    (gs : List (List (PTerm n))) (t : PTerm n)
    (hgs : ∀ g ∈ gs, GroupOK pred g) :
    ∀ g ∈ addToGroups pred gs t, GroupOK pred g := by
  induction gs with
  | nil =>
      intro g hg
      unfold addToGroups at hg
      rw [List.mem_singleton] at hg
      subst hg
      intro a ha b hb
      rw [List.mem_singleton] at ha hb
      subst ha
      subst hb
      exact hrefl _
  | cons g0 gs ih =>
      intro g hg
      unfold addToGroups at hg
      by_cases hfit : (g0.all fun u => pred u.s t.s) = true
      · rw [if_pos hfit] at hg
        rcases List.mem_cons.mp hg with rfl | hmem
        · intro a ha b hb
          have hg0 := hgs g0 (List.mem_cons_self _ _)
          have hfit2 := List.all_eq_true.mp hfit
          rcases List.mem_append.mp ha with ha0 | hat <;>
            rcases List.mem_append.mp hb with hb0 | hbt
          · exact hg0 a ha0 b hb0
          · rw [List.mem_singleton] at hbt
            subst hbt
            exact hfit2 a ha0
          · rw [List.mem_singleton] at hat
            subst hat
            rw [hsymm]
            exact hfit2 b hb0
          · rw [List.mem_singleton] at hat hbt
            subst hat
            subst hbt
            exact hrefl _
        · exact hgs g (List.mem_cons_of_mem _ hmem)
      · rw [if_neg hfit] at hg
        rcases List.mem_cons.mp hg with rfl | hmem
        · exact hgs g (List.mem_cons_self _ _)
        · exact ih (fun g2 hg2 => hgs g2 (List.mem_cons_of_mem _ hg2)) g hmem

/-- Every group the greedy engine returns is closed under the (symmetric,
reflexive) commutation predicate. -/
lemma groupTerms_ok {n : ℕ} (pred : PString n → PString n → Bool)
    (hsymm : ∀ x y : PString n, pred x y = pred y x)
    (hrefl : ∀ x : PString n, pred x x = true) (H : List (PTerm n)) :
    ∀ g ∈ groupTerms pred H, GroupOK pred g := by
  have key : ∀ gs : List (List (PTerm n)), (∀ g ∈ gs, GroupOK pred g) →
      ∀ g ∈ H.foldl (addToGroups pred) gs, GroupOK pred g := by
    induction H with
    | nil => intro gs hgs; exact hgs
    | cons t H ih =>
        intro gs hgs
        exact ih _ (addToGroups_ok pred hsymm hrefl gs t hgs)
  intro g hg
  exact key [] (fun g2 hg2 => absurd hg2 (List.not_mem_nil _)) g hg

lemma qwc_iff {n : ℕ} (a b : PString n) :
    qubit_wise_commutes a b = true ↔
      ∀ q, a q = b q ∨ a q = Pauli.I ∨ b q = Pauli.I := by
  unfold qubit_wise_commutes
  exact decide_eq_true_iff

lemma qwc_refl {n : ℕ} (a : PString n) : qubit_wise_commutes a a = true :=
  (qwc_iff a a).mpr fun _ => Or.inl rfl

lemma qwc_symm {n : ℕ} (a b : PString n) :
    qubit_wise_commutes a b = qubit_wise_commutes b a := by
  unfold qubit_wise_commutes
  rw [decide_eq_decide]
  constructor <;> intro h q <;> rcases h q with h1 | h1 | h1
  · exact Or.inl h1.symm
  · exact Or.inr (Or.inr h1)
  · exact Or.inr (Or.inl h1)
  · exact Or.inl h1.symm
  · exact Or.inr (Or.inr h1)
  · exact Or.inr (Or.inl h1)

lemma diffCount_symm {n : ℕ} (a b : PString n) : diffCount a b = diffCount b a := by
  unfold diffCount
  congr 1
  apply Finset.filter_congr
  intro q _
  exact ⟨fun h => ⟨Ne.symm h.1, h.2.2, h.2.1⟩, fun h => ⟨Ne.symm h.1, h.2.2, h.2.1⟩⟩

lemma fc_symm {n : ℕ} (a b : PString n) : fully_commutes a b = fully_commutes b a := by
  unfold fully_commutes
  rw [diffCount_symm]

lemma diffCount_eq_zero_of_qwc {n : ℕ} {a b : PString n}
    (h : qubit_wise_commutes a b = true) : diffCount a b = 0 := by
  unfold diffCount
  rw [Finset.card_eq_zero, Finset.filter_eq_empty_iff]
  intro q _
  intro hcon
  rcases (qwc_iff a b).mp h q with h1 | h1 | h1
  · exact hcon.1 h1
  · exact hcon.2.1 h1
  · exact hcon.2.2 h1

lemma fc_of_qwc {n : ℕ} {a b : PString n} (h : qubit_wise_commutes a b = true) :
    fully_commutes a b = true := by
  unfold fully_commutes
  rw [diffCount_eq_zero_of_qwc h]
  decide

lemma fc_refl {n : ℕ} (a : PString n) : fully_commutes a a = true :=
  fc_of_qwc (qwc_refl a)

lemma pairwise_commuting_iff {n : ℕ} (pred : PString n → PString n → Bool)
    (G : List (PTerm n)) :
    pairwise_commuting pred G = true ↔ ∀ a ∈ G, ∀ b ∈ G, pred a.s b.s = true := by
  unfold pairwise_commuting
  rw [List.all_eq_true]
  constructor
  · intro h a ha b hb
    exact List.all_eq_true.mp (h a ha) b hb
  · intro h a ha
    exact List.all_eq_true.mpr (h a ha)

/-- In a pairwise qubit-wise-commuting group, every term that is
non-identity at a qubit carries the group's consensus operator there. -/
lemma consensus_eq {n : ℕ} {G : List (PTerm n)}
    (hG : pairwise_commuting qubit_wise_commutes G = true)
    {t : PTerm n} (ht : t ∈ G) {q : Fin n} (hq : t.s q ≠ Pauli.I) :
    consensus G q = t.s q := by
  unfold consensus
  cases hfind : G.find? (fun u => decide (u.s q ≠ Pauli.I)) with
  | none =>
      exfalso
      have hnone := List.find?_eq_none.mp hfind t ht
      exact hnone (decide_eq_true hq)
  | some u =>
      have hu_mem : u ∈ G := List.mem_of_find?_eq_some hfind
      have hp := List.find?_some hfind
      have hu_pred : u.s q ≠ Pauli.I := of_decide_eq_true hp
      have hq2 : qubit_wise_commutes u.s t.s = true :=
        (pairwise_commuting_iff _ G).mp hG u hu_mem t ht
      rcases (qwc_iff u.s t.s).mp hq2 q with h1 | h1 | h1
      · exact h1
      · exact absurd h1 hu_pred
      · exact absurd h1 hq

lemma term_op_cases {n : ℕ} {G : List (PTerm n)}
    (hG : pairwise_commuting qubit_wise_commutes G = true)
    {t : PTerm n} (ht : t ∈ G) (q : Fin n) :
    t.s q = Pauli.I ∨ t.s q = consensus G q := by
  by_cases hq : t.s q = Pauli.I
  · exact Or.inl hq
  · exact Or.inr (consensus_eq hG ht hq).symm

lemma zformQubits_mem_iff {n : ℕ} (G : List (PTerm n)) (q : Fin n) :
    q ∈ zformQubits G ↔ consensus G q = Pauli.X ∨ consensus G q = Pauli.Y := by
  unfold zformQubits
  rw [List.mem_filter]
  constructor
  · intro h
    exact of_decide_eq_true h.2
  · intro h
    exact ⟨List.mem_finRange q, decide_eq_true h⟩

/-- Conjugating any term of a pairwise-QWC group by the group's all-Z
rotation yields the single term with the same coefficient and every
non-identity entry replaced by `Z`. -/
lemma zform_conj_term {n : ℕ} {G : List (PTerm n)}
    (hG : pairwise_commuting qubit_wise_commutes G = true)
    {t : PTerm n} (ht : t ∈ G) :
    get_zform_unitary G * ofTerm t.c t.s * dag (get_zform_unitary G) =
      ofTerm t.c (zify (zformQubits G) t.s) := by
  rw [get_zform_unitary, rotProduct_dag _ (zform_valid G)]
  unfold zformPairs
  exact zform_conj_list G t.c t.s (zformQubits G) (zformQubits_nodup G)
    (fun q hq => zformQubits_mem G hq)
    (fun q _ => term_op_cases hG ht q)

/-- After the all-Z rotation, every entry of a conjugated group term is
identity or `Z`. -/
lemma zify_only_z {n : ℕ} {G : List (PTerm n)}
    (hG : pairwise_commuting qubit_wise_commutes G = true)
    {t : PTerm n} (ht : t ∈ G) (q : Fin n) :
    zify (zformQubits G) t.s q = Pauli.I ∨ zify (zformQubits G) t.s q = Pauli.Z := by
  unfold zify
  by_cases hq : q ∈ zformQubits G
  · rw [if_pos hq]
    by_cases hI : t.s q = Pauli.I
    · rw [if_pos hI]
      exact Or.inl rfl
    · rw [if_neg hI]
      exact Or.inr rfl
  · rw [if_neg hq]
    rcases term_op_cases hG ht q with h1 | h1
    · exact Or.inl h1
    · have hnot : ¬(consensus G q = Pauli.X ∨ consensus G q = Pauli.Y) := by
        intro hcon
        exact hq ((zformQubits_mem_iff G q).mpr hcon)
      rcases hcase : consensus G q with _ | _ | _ | _
      · exact Or.inl (by rw [h1, hcase])
      · exact absurd (Or.inl hcase) hnot
      · exact absurd (Or.inr hcase) hnot
      · exact Or.inr (by rw [h1, hcase])

lemma smul_one_ofTerm {n : ℕ} (c : K) : c • (1 : QubitOp n) = ofTerm c (idS n) := by
  rw [one_eq_ofTerm, smul_ofTerm, mul_one]

/-- Conjugating an identity term by any valid rotation product leaves it
untouched. -/
lemma conj_idS {n : ℕ} (l : List (PString n × PString n)) (hv : ValidFactors l) (c : K) :
    rotProduct l * ofTerm c (idS n) * dag (rotProduct l) = ofTerm c (idS n) := by
  rw [rotProduct_dag l hv, mul_ofTerm_idS, smul_mul_left, rotProduct_self l hv,
    smul_one_ofTerm]

/-- Claim C1: in either mode the grouping engine returns a partition of
the input Hamiltonian: the multiset union (flattening) of the returned
groups is a permutation of the input term list — every input term appears
exactly once across the groups — and the number of groups is at most the
number of input terms. -/
theorem claim_C1 {n : ℕ} (H : List (PTerm n)) :
    ((get_qwc_group H).flatten).Perm H ∧ ((get_commuting_group H).flatten).Perm H ∧
    (get_qwc_group H).length ≤ H.length ∧ (get_commuting_group H).length ≤ H.length :=
  ⟨groupTerms_flatten_perm _ H, groupTerms_flatten_perm _ H,
    groupTerms_length _ H, groupTerms_length _ H⟩

/-- Claim C2: every pair of distinct terms inside any group returned by
the grouping engine satisfies the commutation predicate of the chosen
mode: `qubit_wise_commutes` for qubit-wise mode, `fully_commutes` for
full-commutation mode. -/
theorem claim_C2 {n : ℕ} (H : List (PTerm n)) :
    (∀ g ∈ get_qwc_group H, ∀ a ∈ g, ∀ b ∈ g, a ≠ b →
      qubit_wise_commutes a.s b.s = true) ∧
    (∀ g ∈ get_commuting_group H, ∀ a ∈ g, ∀ b ∈ g, a ≠ b →
      fully_commutes a.s b.s = true) := by
  constructor
  · intro g hg a ha b hb _
    exact groupTerms_ok _ qwc_symm qwc_refl H g hg a ha b hb
  · intro g hg a ha b hb _
    exact groupTerms_ok _ fc_symm fc_refl H g hg a ha b hb

/-- Terms of the concrete witness Hamiltonian `Z0 + Z0 Z1`. -/
def wT1 : PTerm 2 := ⟨![Pauli.Z, Pauli.I], ⟨1, 0, 0, 0⟩⟩

/-- Second witness term, qubit-wise commuting with the first. -/
def wT2 : PTerm 2 := ⟨![Pauli.Z, Pauli.Z], ⟨1, 0, 0, 0⟩⟩

/-- A two-term qubit-wise commuting witness Hamiltonian. -/
def wH : List (PTerm 2) := [wT1, wT2]

/-- Witness for C2 at the Hamiltonian `Z0 + Z0 Z1`, whose two distinct
terms land in one group. -/
theorem claim_C2_witness : qubit_wise_commutes wT1.s wT2.s = true :=
  (claim_C2 wH).1 [wT1, wT2] (by decide) wT1 (by decide) wT2 (by decide) (by decide)

/-- Claim C3: for a valid factor selection the Stage-A rotation, and for
every group the all-Z rotation, satisfies `U · U† = 1` exactly: the
product reduces under the Pauli tensor algebra to the identity term
(empty mapping) with coefficient 1. -/
theorem claim_C3 {n : ℕ} :
    (∀ choice : List (PString n × PString n), ValidFactors choice →
      get_qwc_unitary choice * dag (get_qwc_unitary choice) = 1) ∧
    (∀ G : List (PTerm n), get_zform_unitary G * dag (get_zform_unitary G) = 1) := by
  constructor
  · intro choice hv
    unfold get_qwc_unitary
    rw [rotProduct_dag choice hv]
    exact rotProduct_self choice hv
  · intro G
    unfold get_zform_unitary
    rw [rotProduct_dag _ (zform_valid G)]
    exact rotProduct_self _ (zform_valid G)

instance {n : ℕ} (l : List (PString n × PString n)) : Decidable (ValidFactors l) := by
  unfold ValidFactors
  infer_instance

/-- A concrete one-factor Stage-A selection `(X0 + Z0)/√2`. -/
def wChoice : List (PString 2 × PString 2) :=
  [(![Pauli.X, Pauli.I], ![Pauli.Z, Pauli.I])]

set_option maxRecDepth 4000 in
/-- Witness for C3 at a concrete factor selection and a concrete group. -/
theorem claim_C3_witness :
    get_qwc_unitary wChoice * dag (get_qwc_unitary wChoice) = 1 ∧
    get_zform_unitary wH * dag (get_zform_unitary wH) = 1 :=
  ⟨(claim_C3).1 wChoice (by decide), (claim_C3).2 wH⟩

/-- Claim C4: conjugating every term of a pairwise qubit-wise-commuting
group by the synthesized all-Z rotation yields single terms whose
qubit-to-operator mappings contain only `Z` (never `X` or `Y`) on every
qubit. -/
theorem claim_C4 {n : ℕ} (G : List (PTerm n))
    (hG : pairwise_commuting qubit_wise_commutes G = true) :
    ∀ t ∈ G, ∃ S : PString n,
      get_zform_unitary G * ofTerm t.c t.s * dag (get_zform_unitary G) =
        ofTerm t.c S ∧
      ∀ q, S q ≠ Pauli.X ∧ S q ≠ Pauli.Y := by
  intro t ht
  refine ⟨zify (zformQubits G) t.s, zform_conj_term hG ht, fun q => ?_⟩
  rcases zify_only_z hG ht q with h1 | h1 <;> rw [h1] <;>
    exact And.intro (fun h => Pauli.noConfusion h) (fun h => Pauli.noConfusion h)

/-- Witness for C4 at the Hamiltonian `Z0 + Z0 Z1`. -/
theorem claim_C4_witness :
    ∃ S : PString 2,
      get_zform_unitary wH * ofTerm wT1.c wT1.s * dag (get_zform_unitary wH) =
        ofTerm wT1.c S ∧
      ∀ q, S q ≠ Pauli.X ∧ S q ≠ Pauli.Y :=
  claim_C4 wH (by decide) wT1 (by decide)

/-- Claim C5: `fully_commutes` is true exactly when the number of qubits
at which the two terms carry different non-identity operators is even,
and consequently every qubit-wise commuting pair fully commutes. -/
theorem claim_C5 {n : ℕ} (a b : PString n) :
    (fully_commutes a b = true ↔ Even (diffCount a b)) ∧
    (qubit_wise_commutes a b = true → fully_commutes a b = true) := by
  constructor
  · unfold fully_commutes
    rw [decide_eq_true_iff, Nat.even_iff]
  · exact fc_of_qwc

/-- Witness for C5: `X0 X1` and `Y0 Y1` differ at two non-identity sites,
hence fully commute, and a qubit-wise commuting pair fully commutes. -/
theorem claim_C5_witness :
    fully_commutes (![Pauli.X, Pauli.X] : PString 2) ![Pauli.Y, Pauli.Y] = true ∧
    fully_commutes wT1.s wT2.s = true :=
  ⟨(claim_C5 ![Pauli.X, Pauli.X] ![Pauli.Y, Pauli.Y]).1.mpr (by decide),
    (claim_C5 wT1.s wT2.s).2 (by decide)⟩

/-- Claim C6: `qubit_wise_commutes` holds exactly when at every qubit
carried by both terms the operators coincide, and the predicate is
symmetric and reflexive. -/
theorem claim_C6 {n : ℕ} (a b : PString n) :
    (qubit_wise_commutes a b = true ↔
      ∀ q, a q ≠ Pauli.I → b q ≠ Pauli.I → a q = b q) ∧
    qubit_wise_commutes a b = qubit_wise_commutes b a ∧
    qubit_wise_commutes a a = true := by
  refine ⟨?_, qwc_symm a b, qwc_refl a⟩
  rw [qwc_iff]
  constructor
  · intro h q ha hb
    rcases h q with h1 | h1 | h1
    · exact h1
    · exact absurd h1 ha
    · exact absurd h1 hb
  · intro h q
    by_cases ha : a q = Pauli.I
    · exact Or.inr (Or.inl ha)
    · by_cases hb : b q = Pauli.I
      · exact Or.inr (Or.inr hb)
      · exact Or.inl (h q ha hb)

/-- Witness for C6 at `Z0` versus `Z0 Z1`. -/
theorem claim_C6_witness : wT1.s 0 = wT2.s 0 :=
  (claim_C6 wT1.s wT2.s).1.mp (by decide) 0 (by decide) (by decide)

/-- Claim C7: synthesis returns `UngroupableTermsError` precisely when the
supplied group has a pair of terms violating the chosen predicate (the
check happens before any rotation is built and the `Except` result has no
partial output), and on every pairwise-commuting group it succeeds. -/
theorem claim_C7 {n : ℕ} (pred : PString n → PString n → Bool) (G : List (PTerm n)) :
    (synthesize pred G = Except.error SynthError.ungroupableTerms ↔
      ∃ a ∈ G, ∃ b ∈ G, pred a.s b.s = false) ∧
    ((∀ a ∈ G, ∀ b ∈ G, pred a.s b.s = true) →
      synthesize pred G = Except.ok (get_zform_unitary G)) := by
  constructor
  · constructor
    · intro h
      unfold synthesize at h
      by_cases hp : pairwise_commuting pred G = true
      · rw [if_pos hp] at h
        cases h
      · have hfalse : ¬ ∀ a ∈ G, ∀ b ∈ G, pred a.s b.s = true :=
          fun hall => hp ((pairwise_commuting_iff pred G).mpr hall)
        push_neg at hfalse
        obtain ⟨a, ha, b, hb, hab⟩ := hfalse
        refine ⟨a, ha, b, hb, ?_⟩
        cases hx : pred a.s b.s
        · rfl
        · exact absurd hx hab
    · intro h
      obtain ⟨a, ha, b, hb, hab⟩ := h
      unfold synthesize
      rw [if_neg]
      intro hp
      have := (pairwise_commuting_iff pred G).mp hp a ha b hb
      rw [this] at hab
      cases hab
  · intro h
    unfold synthesize
    rw [if_pos ((pairwise_commuting_iff pred G).mpr h)]

/-- A group violating qubit-wise commutation (`Z0` against `X0`). -/
def wBad : List (PTerm 2) := [⟨![Pauli.Z, Pauli.I], ⟨1, 0, 0, 0⟩⟩,
  ⟨![Pauli.X, Pauli.I], ⟨1, 0, 0, 0⟩⟩]

/-- Witness for C7: the violating pair makes synthesis fail, the
commuting group synthesizes successfully. -/
theorem claim_C7_witness :
    synthesize qubit_wise_commutes wBad = Except.error SynthError.ungroupableTerms ∧
    synthesize qubit_wise_commutes wH = Except.ok (get_zform_unitary wH) :=
  ⟨(claim_C7 qubit_wise_commutes wBad).1.mpr
      ⟨wBad.head (by decide), by decide, wBad.getLast (by decide), by decide, by decide⟩,
    (claim_C7 qubit_wise_commutes wH).2 (by decide)⟩

/-- The three terms of the concrete scenario `0.5 Z0 + 0.3 X0 X1 + 0.3 Y0 Y1`. -/
def wZ0 : PTerm 2 := ⟨![Pauli.Z, Pauli.I], ⟨1 / 2, 0, 0, 0⟩⟩

/-- The term `0.3 X0 X1` of the concrete scenario. -/
def wXX : PTerm 2 := ⟨![Pauli.X, Pauli.X], ⟨3 / 10, 0, 0, 0⟩⟩

/-- The term `0.3 Y0 Y1` of the concrete scenario. -/
def wYY : PTerm 2 := ⟨![Pauli.Y, Pauli.Y], ⟨3 / 10, 0, 0, 0⟩⟩

/-- The concrete scenario Hamiltonian of the spec. -/
def hC8 : List (PTerm 2) := [wZ0, wXX, wYY]

/-- Claim C8: qubit-wise grouping of `0.5 Z0 + 0.3 X0 X1 + 0.3 Y0 Y1`
returns exactly three singleton groups, because no two of the three terms
qubit-wise commute. -/
theorem claim_C8 : get_qwc_group hC8 = [[wZ0], [wXX], [wYY]] := rfl

/-- Claim C9: both synthesized rotation unitaries are Hermitian and
self-inverse: `U† = U` and `U · U` itself (not merely `U · U†`) reduces to
the identity term with coefficient 1, which is exactly the check the
notebook prints (`uqwc * uqwc` and `uz * uz`). -/
theorem claim_C9 {n : ℕ} :
    (∀ choice : List (PString n × PString n), ValidFactors choice →
      dag (get_qwc_unitary choice) = get_qwc_unitary choice ∧
      get_qwc_unitary choice * get_qwc_unitary choice = 1) ∧
    (∀ G : List (PTerm n),
      dag (get_zform_unitary G) = get_zform_unitary G ∧
      get_zform_unitary G * get_zform_unitary G = 1) := by
  constructor
  · intro choice hv
    exact ⟨rotProduct_dag choice hv, rotProduct_self choice hv⟩
  · intro G
    exact ⟨rotProduct_dag _ (zform_valid G), rotProduct_self _ (zform_valid G)⟩

set_option maxRecDepth 4000 in
/-- Witness for C9 at a concrete factor selection and a concrete group. -/
theorem claim_C9_witness :
    dag (get_qwc_unitary wChoice) = get_qwc_unitary wChoice ∧
    get_zform_unitary wH * get_zform_unitary wH = 1 :=
  ⟨((claim_C9).1 wChoice (by decide)).1, ((claim_C9).2 wH).2⟩

/-- Claim C10: conjugation by either synthesized rotation fixes the
identity term: if a group contains the identity term with coefficient
`c`, the conjugated set contains the identity term with the same
coefficient `c`, exactly. -/
theorem claim_C10 {n : ℕ} (G : List (PTerm n)) (c : K)
    (hmem : (⟨idS n, c⟩ : PTerm n) ∈ G) :
    (∀ choice : List (PString n × PString n), ValidFactors choice →
      ofTerm c (idS n) ∈ G.map (fun t =>
        get_qwc_unitary choice * ofTerm t.c t.s * dag (get_qwc_unitary choice))) ∧
    ofTerm c (idS n) ∈ G.map (fun t =>
      get_zform_unitary G * ofTerm t.c t.s * dag (get_zform_unitary G)) := by
  constructor
  · intro choice hv
    refine List.mem_map.mpr ⟨⟨idS n, c⟩, hmem, ?_⟩
    exact conj_idS choice hv c
  · refine List.mem_map.mpr ⟨⟨idS n, c⟩, hmem, ?_⟩
    exact conj_idS (zformPairs G) (zform_valid G) c

/-- A group containing the identity term with coefficient 2. -/
def wGid : List (PTerm 2) := [⟨idS 2, ⟨2, 0, 0, 0⟩⟩]

set_option maxRecDepth 4000 in
/-- Witness for C10 at a concrete group and factor selection. -/
theorem claim_C10_witness :
    ofTerm (⟨2, 0, 0, 0⟩ : K) (idS 2) ∈ wGid.map (fun t =>
      get_qwc_unitary wChoice * ofTerm t.c t.s * dag (get_qwc_unitary wChoice)) ∧
    ofTerm (⟨2, 0, 0, 0⟩ : K) (idS 2) ∈ wGid.map (fun t =>
      get_zform_unitary wGid * ofTerm t.c t.s * dag (get_zform_unitary wGid)) :=
  ⟨(claim_C10 wGid ⟨2, 0, 0, 0⟩ (List.mem_singleton.mpr rfl)).1 wChoice (by decide),
    (claim_C10 wGid ⟨2, 0, 0, 0⟩ (List.mem_singleton.mpr rfl)).2⟩

end VQE
